import Mathlib

/-!
Verification of the CPU 2D adaptive max pooling implementation
(`csrc/aten/cpu/AdaptiveMaxPooling.cpp`): forward kernels for the
contiguous and channels-last layouts, the backward kernels, and the
dispatch shell.  Scalar values are modelled by an inductive type `FP`
carrying the order structure the kernels use (`>` comparisons, `isnan`,
infinities); exact rational arithmetic stands in for the floating
magnitudes.  The conversion `scalar_t(maxindex)` performed by the
contiguous kernel when storing an argmax index into the int64 indices
tensor is modelled by round-to-nearest-even at the element type's
significand precision (8 bits for bfloat16, 24 for float, 53 for double).
-/

namespace AdaptiveMaxPool

/-- A floating-point scalar as the kernels observe it: NaN, the two
infinities, or a finite magnitude (modelled exactly by a rational). -/
inductive FP where
  | nan : FP
  | neginf : FP
  | fin (q : ℚ) : FP
  | posinf : FP
  deriving DecidableEq

/-- `std::isnan` on the modelled scalar. -/
def FP.isnan : FP → Bool
  | .nan => true
  | _ => false

/-- The IEEE `>` comparison used by `val > maxval`: false whenever either
operand is NaN, otherwise the order with `-inf` at the bottom and `+inf`
at the top. -/
def fgt : FP → FP → Bool
  | .nan, _ => false
  | _, .nan => false
  | .posinf, .posinf => false
  | .posinf, _ => true
  | _, .posinf => false
  | .fin a, .fin b => decide (b < a)
  | .fin _, .neginf => true
  | .neginf, _ => false

/-- The three element types the kernels are dispatched over
(`AT_DISPATCH_FLOATING_TYPES_AND(at::ScalarType::BFloat16, ...)`). -/
inductive DType where
  | float : DType
  | double : DType
  | bf16 : DType
  deriving DecidableEq

/-- Significand precision (bits, implicit leading bit included) of the
element type; governs which integers the type represents exactly. -/
def prec : DType → Nat
  | .float => 24
  | .double => 53
  | .bf16 => 8

/-- `std::numeric_limits<integer_t>::max()` for the index lane integer of
the channels-last kernel: `int_same_size_t<scalar_t>` is `int32_t` for
float, `int64_t` for double, and the bfloat16 specialization uses
`int32_t`. -/
def indexLaneMax : DType → Nat
  | .float => 2 ^ 31 - 1
  | .double => 2 ^ 63 - 1
  | .bf16 => 2 ^ 31 - 1

/-- Number of binary digits of a natural number (fuel-driven so that it
reduces definitionally). -/
def bitLenAux : Nat → Nat → Nat
  | 0, _ => 0
  | fuel + 1, n => if n = 0 then 0 else bitLenAux fuel (n / 2) + 1

/-- Number of binary digits of `n` (`0` for `0`). -/
def bitLen (n : Nat) : Nat := bitLenAux n n

/-- Round-to-nearest-even of a natural number to `p` significand bits:
the value of the C++ conversion chain int64 -> floating type -> int64
performed by `indices_ptr[...] = scalar_t(maxindex)` in the contiguous
kernel, for indices within the type's finite range. -/
def roundRNE (p n : Nat) : Nat :=
  let L := bitLen n
  if L ≤ p then n
  else
    let u := 2 ^ (L - p)
    let q := n / u
    let r := n % u
    if r * 2 < u then q * u
    else if u < r * 2 then (q + 1) * u
    else if q % 2 = 0 then q * u else (q + 1) * u

/-- The int64 value that ends up stored in the indices tensor by the
contiguous kernel after the `scalar_t(maxindex)` conversion. -/
def castIdx (d : DType) (n : Nat) : Nat := roundRNE (prec d) n

/-- Modelled from the spec: `start_index` is defined in ATen's
`AdaptivePooling.h`, outside this repository's sources; the spec gives
the normative formula `start(o,O,I) = ⌊o·I/O⌋`. -/
def start_index (o O I : Nat) : Nat := o * I / O

/-- Modelled from the spec: `end_index` is defined in ATen's
`AdaptivePooling.h`, outside this repository's sources; the spec gives
the normative formula `end(o,O,I) = ⌈(o+1)·I/O⌉`. -/
def end_index (o O I : Nat) : Nat := ((o + 1) * I + O - 1) / O

/-- Flattened spatial indices `ih·W+iw` of one pooling window, in the
kernels' scan order: outer loop over `ih`, inner loop over `iw`. -/
def windowCells (W ih0 ih1 iw0 iw1 : Nat) : List Nat :=
  (List.range' ih0 (ih1 - ih0)).flatMap fun ih =>
    (List.range' iw0 (iw1 - iw0)).map fun iw => ih * W + iw

/-- The window of flattened spatial indices feeding output cell
`(oh, ow)`. -/
def cellWindow (H W oH oW oh ow : Nat) : List Nat :=
  windowCells W (start_index oh oH H) (end_index oh oH H)
    (start_index ow oW W) (end_index ow oW W)

/-- One step of the running-max loop body: `if ((val > maxval) ||
std::isnan(val)) maxval = val, maxindex = index`. -/
def poolStep (v : Nat → FP) (s : FP × Nat) (j : Nat) : FP × Nat :=
  if fgt (v j) s.1 || (v j).isnan then (v j, j) else s

/-- The window reduction of the forward kernels: running state
`(maxval, maxindex)` initialized to `(-inf, i0)` and folded over the
window cells in scan order. -/
def poolScan (v : Nat → FP) (i0 : Nat) (l : List Nat) : FP × Nat :=
  l.foldl (poolStep v) (FP.neginf, i0)

/-- Element access of the contiguous kernel inside one merged
batch-channel plane `c`: `input_ptr = input_data + c*H*W` then
`input_ptr[index]`. -/
def contigRead (data : Nat → FP) (H W c : Nat) : Nat → FP :=
  fun j => data (c * (H * W) + j)

/-- Element access of the channels-last kernel for batch `n`, channel
`c`: `input_data + n*H*W*C + ih*W*C + iw*C` then lane `c`, as a function
of the flattened spatial index `ih*W+iw`. -/
def clRead (data : Nat → FP) (C H W n c : Nat) : Nat → FP :=
  fun j => data (n * (H * W * C) + j * C + c)

/-- The value and stored int64 index that `cpu_adaptive_max_pool` (the
contiguous forward kernel) writes at output cell `(oh, ow)` of merged
plane `c`.  The stored index goes through `scalar_t(maxindex)`, modelled
by `castIdx`. -/
def cpu_adaptive_max_pool (d : DType) (data : Nat → FP)
    (H W oH oW c oh ow : Nat) : FP × Nat :=
  let r := poolScan (contigRead data H W c)
    (start_index oh oH H * W + start_index ow oW W)
    (cellWindow H W oH oW oh ow)
  (r.1, castIdx d r.2)

/-- The value and stored int64 index that the channels-last forward
kernel writes at output position `(n, oh, ow)`, channel `c`.  Both the
SIMD lanes and the scalar tail apply the same per-lane blend
`(val > maxval) || isnan(val)`; the index is kept in the integer lane
buffer and widened exactly to int64 at the end. -/
def cpu_adaptive_max_pool_channels_last_cell (data : Nat → FP)
    (C H W oH oW n c oh ow : Nat) : FP × Nat :=
  poolScan (clRead data C H W n c)
    (start_index oh oH H * W + start_index ow oW W)
    (cellWindow H W oH oW oh ow)

/-- Entry of the channels-last forward kernel
`cpu_adaptive_max_pool_channels_last`: the two `TORCH_CHECK`s (4
dimensions; `input_height * input_width <=
std::numeric_limits<integer_t>::max()`), then the per-cell computation. -/
def cpu_adaptive_max_pool_channels_last (d : DType) (data : Nat → FP)
    (ndim _N C H W oH oW : Nat) :
    Except String (Nat → Nat → Nat → Nat → FP × Nat) :=
  if ndim ≠ 4 then
    Except.error "adaptive max pooling with channels last format supports tensors with 4 dims"
  else if ¬ H * W ≤ indexLaneMax d then
    Except.error "index overflow in channels last adaptive max pooling"
  else
    Except.ok fun n c oh ow =>
      cpu_adaptive_max_pool_channels_last_cell data C H W oH oW n c oh ow

/-- `input.suggest_memory_format()`: channels-last can only be suggested
for a 4D tensor; 3D tensors always report contiguous. -/
def suggestMemFmt (chLast : Bool) (ndim : Nat) : Bool :=
  chLast && (ndim == 4)

/-- The forward dispatch shell `adaptive_max_pool2d_out_cpu`: validates
rank, non-zero non-batch dimensions and output-size arity, allocates
output and indices shapes, and invokes the layout-appropriate kernel;
returns the (output, indices) shape pair on success. -/
def adaptive_max_pool2d_out_cpu (d : DType) (chLast : Bool)
    (sizes outSize : List Nat) (data : Nat → FP) :
    Except String (List Nat × List Nat) :=
  let ndim := sizes.length
  if ¬ (ndim = 3 ∨ ndim = 4) then
    Except.error "adaptive_max_pool2d: Expected 3D or 4D tensor"
  else if ¬ (sizes.drop 1).all (fun s => 0 < s) then
    Except.error "adaptive_max_pool2d: Expected input to have non-zero size for non-batch dimensions"
  else if ¬ outSize.length = 2 then
    Except.error "adaptive_max_pool2d: internal error: output_size.size() must be 2"
  else
    let oH := outSize.getD 0 0
    let oW := outSize.getD 1 0
    let oshape := if ndim = 3 then [sizes.getD 0 0, oH, oW]
      else [sizes.getD 0 0, sizes.getD 1 0, oH, oW]
    if suggestMemFmt chLast ndim then
      match cpu_adaptive_max_pool_channels_last d data ndim (sizes.getD 0 0)
        (sizes.getD 1 0) (sizes.getD 2 0) (sizes.getD 3 0) oH oW with
      | Except.error e => Except.error e
      | Except.ok _ => Except.ok (oshape, oshape)
    else
      Except.ok (oshape, oshape)

/-- The contiguous backward kernel `cpu_adaptive_max_pool_backward`,
restricted to one merged batch-channel plane: grad-input starts from the
shell's zero initialization and every output cell `oh*oW+ow` (scanned
`oh` outer, `ow` inner) performs
`grad_input_ptr[maxindex] += grad_output_ptr[index]`. -/
def cpu_adaptive_max_pool_backward (oH oW : Nat) (ind : Nat → Nat)
    (g : Nat → ℚ) : Nat → ℚ :=
  (List.range (oH * oW)).foldl
    (fun gi cell => Function.update gi (ind cell) (gi (ind cell) + g cell))
    fun _ => 0

/-- The channels-last backward kernel
`cpu_adaptive_max_pool_backward_channels_last`, restricted to one batch
entry: output cells are scanned `oh` outer, `ow` inner, then the channel
loop runs, and cell `(oh,ow)` channel `c` adds grad-output at flat
offset `(oh*oW+ow)*C + c` into grad-input flat offset `maxindex*C + c`. -/
def cpu_adaptive_max_pool_backward_channels_last (C oH oW : Nat)
    (ind : Nat → Nat) (g : Nat → ℚ) : Nat → ℚ :=
  (List.range (oH * oW)).foldl
    (fun gi cell =>
      (List.range C).foldl
        (fun gi2 c =>
          Function.update gi2 (ind (cell * C + c) * C + c)
            (gi2 (ind (cell * C + c) * C + c) + g (cell * C + c)))
        gi)
    fun _ => 0

/-- Concrete input: zeros with a single `1` at flat position 257. -/
def exInputC1 : Nat → FP := fun j => if j = 257 then FP.fin 1 else FP.fin 0

/-- Concrete input: zeros with a single `1` at flat position 257. -/
def exInputC2 : Nat → FP := fun j => if j = 257 then FP.fin 1 else FP.fin 0

/-- Concrete input: zeros with a single NaN at flat position 257. -/
def exInputC3 : Nat → FP := fun j => if j = 257 then FP.nan else FP.fin 0

/-- Concrete input: twos with a single `5` at flat position 257. -/
def exInputC4 : Nat → FP := fun j => if j = 257 then FP.fin 5 else FP.fin 2

/-- Concrete input: every element is `-inf`. -/
def exInputC10 : Nat → FP := fun _ => FP.neginf

theorem fgt_nan_left (a : FP) : fgt FP.nan a = false := by
  cases a <;> rfl

theorem fgt_nan_right (a : FP) : fgt a FP.nan = false := by
  cases a <;> rfl

theorem isnan_of_fgt_false_left {a b : FP} (h : fgt a b = true) :
    a.isnan = false := by
  cases a <;> simp_all [fgt, FP.isnan]

theorem isnan_of_fgt_false_right {a b : FP} (h : fgt a b = true) :
    b.isnan = false := by
  cases a <;> cases b <;> simp_all [fgt, FP.isnan]

theorem fgt_trans {a b c : FP} (h1 : fgt b a = true) (h2 : fgt c b = true) :
    fgt c a = true := by
  cases a <;> cases b <;> cases c <;> simp_all [fgt] <;> linarith

theorem fgt_of_fgt_of_not_fgt {a b c : FP} (ha : a.isnan = false)
    (h1 : fgt c b = true) (h2 : fgt a b = false) : fgt c a = true := by
  cases a <;> cases b <;> cases c <;> simp_all [fgt, FP.isnan] <;> linarith

theorem eq_neginf_of_not_fgt {a : FP} (ha : a.isnan = false)
    (h : fgt a FP.neginf = false) : a = FP.neginf := by
  cases a <;> simp_all [fgt, FP.isnan]

theorem fgt_neginf_left (a : FP) : fgt FP.neginf a = false := by
  cases a <;> rfl

/-- Behaviour of the running-max fold on a NaN-free suffix, for an
arbitrary non-NaN accumulator: either no element beats the accumulator
and the state is unchanged, or the result value is attained at the
resulting index, beats the accumulator, strictly beats everything
scanned before that index, and is not beaten by anything after it. -/
theorem foldl_poolStep_spec (v : Nat → FP) :
    ∀ (l : List Nat) (mv : FP) (mi : Nat), mv.isnan = false →
      (∀ j ∈ l, (v j).isnan = false) →
      ∃ rv ri, l.foldl (poolStep v) (mv, mi) = (rv, ri) ∧
        ((rv = mv ∧ ri = mi ∧ ∀ j ∈ l, fgt (v j) mv = false) ∨
          (∃ l1 l2, l = l1 ++ ri :: l2 ∧ rv = v ri ∧ fgt rv mv = true ∧
            (∀ j ∈ l1, fgt rv (v j) = true) ∧
            (∀ j ∈ l2, fgt (v j) rv = false))) := by
  intro l
  induction l with
  | nil =>
    intro mv mi hmv _
    exact ⟨mv, mi, rfl, Or.inl ⟨rfl, rfl, by simp⟩⟩
  | cons j t ih =>
    intro mv mi hmv hnn
    have hj : (v j).isnan = false := hnn j (List.mem_cons_self j t)
    have hnt : ∀ x ∈ t, (v x).isnan = false :=
      fun x hx => hnn x (List.mem_cons_of_mem j hx)
    by_cases hf : fgt (v j) mv = true
    · have hstep : List.foldl (poolStep v) (mv, mi) (j :: t)
          = List.foldl (poolStep v) (v j, j) t := by
        simp [poolStep, hf]
      obtain ⟨rv, ri, hres, hcase⟩ := ih (v j) j hj hnt
      refine ⟨rv, ri, by rw [hstep, hres], Or.inr ?_⟩
      rcases hcase with ⟨h1, h2, h3⟩ | ⟨l1, l2, hsplit, hval, hbeat, hpre, hpost⟩
      · subst h1; subst h2
        exact ⟨[], t, rfl, rfl, hf, by simp, h3⟩
      · refine ⟨j :: l1, l2, by simp [hsplit], hval, fgt_trans hf hbeat, ?_, hpost⟩
        intro x hx
        rcases List.mem_cons.mp hx with hx | hx
        · subst hx; exact hbeat
        · exact hpre x hx
    · have hf' : fgt (v j) mv = false := by
        cases hfv : fgt (v j) mv
        · rfl
        · exact absurd hfv hf
      have hstep : List.foldl (poolStep v) (mv, mi) (j :: t)
          = List.foldl (poolStep v) (mv, mi) t := by
        simp [poolStep, hf', hj]
      obtain ⟨rv, ri, hres, hcase⟩ := ih mv mi hmv hnt
      refine ⟨rv, ri, by rw [hstep, hres], ?_⟩
      rcases hcase with ⟨h1, h2, h3⟩ | ⟨l1, l2, hsplit, hval, hbeat, hpre, hpost⟩
      · refine Or.inl ⟨h1, h2, ?_⟩
        intro x hx
        rcases List.mem_cons.mp hx with hx | hx
        · subst hx; exact hf'
        · exact h3 x hx
      · refine Or.inr ⟨j :: l1, l2, by simp [hsplit], hval, hbeat, ?_, hpost⟩
        intro x hx
        rcases List.mem_cons.mp hx with hx | hx
        · subst hx; exact fgt_of_fgt_of_not_fgt hj hbeat hf'
        · exact hpre x hx

/-- If every scanned value neither beats the accumulator value nor is a
NaN, the running-max state never changes. -/
theorem foldl_poolStep_const (v : Nat → FP) :
    ∀ (l : List Nat) (s : FP × Nat),
      (∀ j ∈ l, fgt (v j) s.1 = false ∧ (v j).isnan = false) →
      l.foldl (poolStep v) s = s := by
  intro l
  induction l with
  | nil => intro s _; rfl
  | cons j t ih =>
    intro s h
    have hj := h j (List.mem_cons_self j t)
    have hstep : poolStep v s j = s := by
      simp [poolStep, hj.1, hj.2]
    rw [List.foldl_cons, hstep]
    exact ih s fun x hx => h x (List.mem_cons_of_mem j hx)

/-- The running-max fold only looks at the values of the scanned cells:
two reads that agree on the scanned list produce the same state. -/
theorem foldl_poolStep_congr (v w : Nat → FP) :
    ∀ (l : List Nat), (∀ j ∈ l, v j = w j) →
      ∀ s, l.foldl (poolStep v) s = l.foldl (poolStep w) s := by
  intro l
  induction l with
  | nil => intro _ s; rfl
  | cons j t ih =>
    intro h s
    have hj : v j = w j := h j (List.mem_cons_self j t)
    have hstep : poolStep v s j = poolStep w s j := by
      simp [poolStep, hj]
    rw [List.foldl_cons, List.foldl_cons, hstep]
    exact ih (fun x hx => h x (List.mem_cons_of_mem j hx)) _

/-- A nonempty window's cell list starts with the flattened index of the
window's top-left corner, which is also the kernels' initial
`maxindex`. -/
theorem windowCells_eq_cons (W ih0 ih1 iw0 iw1 : Nat)
    (h1 : ih0 < ih1) (h2 : iw0 < iw1) :
    ∃ t, windowCells W ih0 ih1 iw0 iw1 = (ih0 * W + iw0) :: t := by
  obtain ⟨k, hk⟩ : ∃ k, ih1 - ih0 = k + 1 := ⟨ih1 - ih0 - 1, by omega⟩
  obtain ⟨m, hm⟩ : ∃ m, iw1 - iw0 = m + 1 := ⟨iw1 - iw0 - 1, by omega⟩
  unfold windowCells
  rw [hk, hm, List.range'_succ, List.range'_succ, List.flatMap_cons,
    List.map_cons, List.cons_append]
  exact ⟨_, rfl⟩

/-- Characterization of window membership. -/
theorem mem_windowCells {W ih0 ih1 iw0 iw1 j : Nat} :
    j ∈ windowCells W ih0 ih1 iw0 iw1 ↔
      ∃ ih iw, ih0 ≤ ih ∧ ih < ih1 ∧ iw0 ≤ iw ∧ iw < iw1 ∧ j = ih * W + iw := by
  unfold windowCells
  constructor
  · intro h
    obtain ⟨ih, hih, h2⟩ := List.mem_flatMap.mp h
    obtain ⟨iw, hiw, rfl⟩ := List.mem_map.mp h2
    obtain ⟨ha, hb⟩ := List.mem_range'_1.mp hih
    obtain ⟨hc, hd⟩ := List.mem_range'_1.mp hiw
    exact ⟨ih, iw, ha, by omega, hc, by omega, rfl⟩
  · rintro ⟨ih, iw, ha, hb, hc, hd, rfl⟩
    exact List.mem_flatMap.mpr ⟨ih, List.mem_range'_1.mpr ⟨ha, by omega⟩,
      List.mem_map.mpr ⟨iw, List.mem_range'_1.mpr ⟨hc, by omega⟩, rfl⟩⟩

/-- The window of any output index is nonempty as soon as the output and
input extents are. -/
theorem start_index_lt_end_index {o O I : Nat} (hO : 0 < O) (hI : 0 < I) :
    start_index o O I < end_index o O I := by
  unfold start_index end_index
  have key : (o * I / O + 1) * O ≤ (o + 1) * I + O - 1 := by
    have h1 : o * I / O * O ≤ o * I := Nat.div_mul_le_self _ _
    have h2 : (o + 1) * I = o * I + I := by ring
    have h3 : (o * I / O + 1) * O = o * I / O * O + O := by ring
    omega
  exact Nat.lt_of_succ_le ((Nat.le_div_iff_mul_le hO).mpr key)

/-- Windows stay inside the input extent. -/
theorem end_index_le {o O I : Nat} (hO : 0 < O) (ho : o < O) :
    end_index o O I ≤ I := by
  unfold end_index
  have h4 : (o + 1) * I ≤ O * I := Nat.mul_le_mul_right I ho
  have key : (o + 1) * I + O - 1 < (I + 1) * O := by
    have h5 : (I + 1) * O = I * O + O := by ring
    have h6 : O * I = I * O := by ring
    omega
  exact Nat.lt_succ_iff.mp ((Nat.div_lt_iff_lt_mul hO).mpr key)

/-- Every input index is covered by the window of some output index. -/
theorem window_cover {O I i : Nat} (hO : 0 < O) (hI : 0 < I) (hi : i < I) :
    ∃ o, o < O ∧ start_index o O I ≤ i ∧ i < end_index o O I := by
  refine ⟨i * O / I, ?_, ?_, ?_⟩
  · refine (Nat.div_lt_iff_lt_mul hI).mpr ?_
    have h1 : i * O < I * O := by
      have h2 : 0 < O := hO
      exact Nat.mul_lt_mul_of_lt_of_le hi (le_refl O) h2
    have h3 : I * O = O * I := by ring
    omega
  · unfold start_index
    have h1 : i * O / I * I ≤ i * O := Nat.div_mul_le_self _ _
    calc i * O / I * I / O ≤ i * O / O := Nat.div_le_div_right h1
    _ = i := Nat.mul_div_cancel i hO
  · unfold end_index
    have hd := Nat.div_add_mod (i * O) I
    have hm : i * O % I < I := Nat.mod_lt _ hI
    have h2 : i * O < (i * O / I + 1) * I := by
      have h7 : (i * O / I + 1) * I = I * (i * O / I) + I := by ring
      omega
    have key : (i + 1) * O ≤ (i * O / I + 1) * I + O - 1 := by
      have h3 : (i + 1) * O = i * O + O := by ring
      omega
    exact Nat.lt_of_succ_le ((Nat.le_div_iff_mul_le hO).mpr key)

/-- The full forward-kernel window reduction on a NaN-free nonempty
window produces the maximum of the window's values, attained at the
earliest scan position achieving it. -/
theorem poolScan_max_spec (v : Nat → FP) (i0 : Nat) (l t : List Nat)
    (hl : l = i0 :: t) (hnn : ∀ j ∈ l, (v j).isnan = false) :
    ∃ m l1 l2, l = l1 ++ m :: l2 ∧ poolScan v i0 l = (v m, m) ∧
      (∀ j ∈ l1, fgt (v m) (v j) = true) ∧
      (∀ j ∈ l2, fgt (v j) (v m) = false) := by
  obtain ⟨rv, ri, hres, hcase⟩ :=
    foldl_poolStep_spec v l FP.neginf i0 rfl hnn
  rcases hcase with ⟨h1, h2, h3⟩ | ⟨l1, l2, hsplit, hval, _, hpre, hpost⟩
  · have hmem0 : i0 ∈ l := by rw [hl]; exact List.mem_cons_self i0 t
    have hi0 : (v i0).isnan = false := hnn i0 hmem0
    have hv0 : v i0 = FP.neginf := eq_neginf_of_not_fgt hi0 (h3 i0 hmem0)
    refine ⟨i0, [], t, by simpa using hl, ?_, by simp, ?_⟩
    · rw [poolScan, hres, h1, h2, hv0]
    · intro j hj
      have hvj : v j = FP.neginf := by
        have hjl : j ∈ l := by rw [hl]; exact List.mem_cons_of_mem i0 hj
        exact eq_neginf_of_not_fgt (hnn j hjl) (h3 j hjl)
      rw [hvj, hv0]
      exact fgt_neginf_left _
  · refine ⟨ri, l1, l2, hsplit, ?_, ?_, ?_⟩
    · rw [poolScan, hres, hval]
    · intro j hj; rw [← hval]; exact hpre j hj
    · intro j hj; rw [← hval]; exact hpost j hj

/-- The full forward-kernel window reduction on a window containing at
least one NaN produces that NaN positioned at the last NaN in scan
order. -/
theorem poolScan_nan_spec (v : Nat → FP) (i0 : Nat) (l : List Nat)
    (h : ∃ j ∈ l, (v j).isnan = true) :
    ∃ m l1 l2, l = l1 ++ m :: l2 ∧ (v m).isnan = true ∧
      (∀ j ∈ l2, (v j).isnan = false) ∧ poolScan v i0 l = (v m, m) := by
  induction l using List.reverseRecOn with
  | nil => simp at h
  | append_singleton l' j ih =>
    by_cases hj : (v j).isnan = true
    · refine ⟨j, l', [], rfl, hj, by simp, ?_⟩
      rw [poolScan, List.foldl_append]
      show poolStep v (List.foldl (poolStep v) (FP.neginf, i0) l') j = (v j, j)
      simp [poolStep, hj]
    · have hj' : (v j).isnan = false := by
        cases hv : (v j).isnan
        · rfl
        · exact absurd hv hj
      obtain ⟨x, hx, hxn⟩ := h
      have hx' : x ∈ l' := by
        rcases List.mem_append.mp hx with hx | hx
        · exact hx
        · have : x = j := by simpa using hx
          subst this
          exact absurd hxn hj
      obtain ⟨m, l1, l2, hsplit, hmn, hl2, hscan⟩ := ih ⟨x, hx', hxn⟩
      refine ⟨m, l1, l2 ++ [j], by rw [hsplit]; simp, hmn, ?_, ?_⟩
      · intro y hy
        rcases List.mem_append.mp hy with hy | hy
        · exact hl2 y hy
        · have : y = j := by simpa using hy
          subst this
          exact hj'
      · rw [poolScan, List.foldl_append]
        rw [poolScan] at hscan
        rw [hscan]
        have hnan : fgt (v j) (v m) = false := by
          have := hmn
          cases hvm : v m
          · exact fgt_nan_right _
          · rw [hvm] at hmn; simp [FP.isnan] at hmn
          · rw [hvm] at hmn; simp [FP.isnan] at hmn
          · rw [hvm] at hmn; simp [FP.isnan] at hmn
        simp [poolStep, hnan, hj']

/-- Pointwise value of a fold of read-add-update accumulation steps: the
initial value plus the sum of the contributions targeted at the queried
position. -/
theorem foldl_update_apply {α : Type} (pos : α → Nat) (val : α → ℚ) :
    ∀ (l : List α) (g0 : Nat → ℚ) (j : Nat),
      (l.foldl (fun gi p => Function.update gi (pos p) (gi (pos p) + val p))
          g0) j
        = g0 j + (l.map fun p => if pos p = j then val p else 0).sum := by
  intro l
  induction l with
  | nil => intro g0 j; simp
  | cons p t ih =>
    intro g0 j
    rw [List.foldl_cons, ih, List.map_cons, List.sum_cons,
      Function.update_apply]
    by_cases h : j = pos p
    · rw [if_pos h, if_pos h.symm, h]; ring
    · rw [if_neg h, if_neg fun hh => h hh.symm]; ring

theorem sum_map_range (f : Nat → ℚ) :
    ∀ n, ((List.range n).map f).sum = ∑ i in Finset.range n, f i := by
  intro n
  induction n with
  | zero => simp
  | succ k ih =>
    rw [List.range_succ, List.map_append, List.sum_append,
      Finset.sum_range_succ, ih]
    simp

/-- Pointwise value of the nested channel-loop accumulation of the
channels-last backward kernel. -/
theorem foldl_cl_update_apply (ind : Nat → Nat) (g : Nat → ℚ) (C : Nat) :
    ∀ (l : List Nat) (g0 : Nat → ℚ) (j : Nat),
      (l.foldl
          (fun gi cell =>
            (List.range C).foldl
              (fun gi2 c =>
                Function.update gi2 (ind (cell * C + c) * C + c)
                  (gi2 (ind (cell * C + c) * C + c) + g (cell * C + c)))
              gi)
          g0) j
        = g0 j + (l.map fun cell => ((List.range C).map fun c =>
            if ind (cell * C + c) * C + c = j then g (cell * C + c)
            else 0).sum).sum := by
  intro l
  induction l with
  | nil => intro g0 j; simp
  | cons cell t ih =>
    intro g0 j
    rw [List.foldl_cons, ih, List.map_cons, List.sum_cons]
    have hinner := foldl_update_apply (fun c => ind (cell * C + c) * C + c)
      (fun c => g (cell * C + c)) (List.range C) g0 j
    rw [hinner]
    ring

/-- Collapsing the channel sum of the channels-last backward kernel at a
fixed target channel. -/
theorem inner_sum_collapse (ind : Nat → Nat) (g : Nat → ℚ)
    (C cell j c2 : Nat) (hc2 : c2 < C) :
    ((List.range C).map fun c =>
        if ind (cell * C + c) * C + c = j * C + c2 then g (cell * C + c)
        else 0).sum
      = if ind (cell * C + c2) = j then g (cell * C + c2) else 0 := by
  rw [sum_map_range]
  have hstep : ∀ c ∈ Finset.range C,
      (if ind (cell * C + c) * C + c = j * C + c2 then g (cell * C + c)
        else 0)
        = if c = c2 then
            (if ind (cell * C + c) = j then g (cell * C + c) else 0)
          else 0 := by
    intro c hc
    have hcC : c < C := Finset.mem_range.mp hc
    by_cases hcc : c = c2
    · subst hcc
      have hC : 0 < C := by omega
      have hiff : ind (cell * C + c) * C + c = j * C + c ↔
          ind (cell * C + c) = j := by
        constructor
        · intro h
          have h2 : ind (cell * C + c) * C = j * C := by omega
          exact Nat.eq_of_mul_eq_mul_right hC h2
        · intro h; rw [h]
      by_cases hij : ind (cell * C + c) = j
      · rw [if_pos (hiff.mpr hij), if_pos rfl, if_pos hij]
      · rw [if_neg fun hh => hij (hiff.mp hh), if_pos rfl, if_neg hij]
    · rw [if_neg ?_, if_neg hcc]
      intro h
      have h1 : (ind (cell * C + c) * C + c) % C = c % C := by
        rw [Nat.mul_comm]; exact Nat.mul_add_mod _ _ _
      have h2 : (j * C + c2) % C = c2 % C := by
        rw [Nat.mul_comm]; exact Nat.mul_add_mod _ _ _
      rw [h] at h1
      rw [h2] at h1
      rw [Nat.mod_eq_of_lt hcC, Nat.mod_eq_of_lt hc2] at h1
      exact hcc h1.symm
  rw [Finset.sum_congr rfl hstep,
    Finset.sum_ite_eq' (Finset.range C) c2
      fun c => if ind (cell * C + c) = j then g (cell * C + c) else 0,
    if_pos (Finset.mem_range.mpr hc2)]

/-- C6: for every output extent `O ≥ 1`, input extent `I ≥ 1` and output
index `o < O`, the window `[start(o,O,I), end(o,O,I))` with
`start = ⌊o·I/O⌋` and `end = ⌈(o+1)·I/O⌉` is nonempty and stays inside
`[0,I)`, and every input index `i < I` lies in the window of some output
index, so the windows tile `[0,I)`. -/
theorem c6_window_tiling (O I : Nat) (hO : 1 ≤ O) (hI : 1 ≤ I) :
    (∀ o, o < O → start_index o O I < end_index o O I ∧ end_index o O I ≤ I) ∧
    (∀ i, i < I → ∃ o, o < O ∧ start_index o O I ≤ i ∧ i < end_index o O I) := by
  constructor
  · intro o ho
    exact ⟨start_index_lt_end_index hO hI, end_index_le hO ho⟩
  · intro i hi
    exact window_cover hO hI hi

theorem c6_window_tiling_witness :
    1 ≤ 2 ∧ 1 ≤ 3 ∧
      ((∀ o, o < 2 → start_index o 2 3 < end_index o 2 3 ∧ end_index o 2 3 ≤ 3) ∧
        (∀ i, i < 3 → ∃ o, o < 2 ∧ start_index o 2 3 ≤ i ∧ i < end_index o 2 3)) :=
  ⟨by norm_num, by norm_num, c6_window_tiling 2 3 (by norm_num) (by norm_num)⟩

/-- C7: on a 4-dimensional input, the channels-last forward kernel fails
exactly when `H·W` exceeds the maximum of its index-lane integer type,
which is `2^31 - 1` (int32) for float and bfloat16 inputs and
`2^63 - 1` (int64) for double inputs; within the bound it succeeds and
produces the per-cell results. -/
theorem c7_overflow_check :
    (∀ (d : DType) (data : Nat → FP) (N C H W oH oW : Nat),
        (cpu_adaptive_max_pool_channels_last d data 4 N C H W oH oW).isOk
          = decide (H * W ≤ indexLaneMax d)) ∧
    indexLaneMax DType.float = 2 ^ 31 - 1 ∧
    indexLaneMax DType.bf16 = 2 ^ 31 - 1 ∧
    indexLaneMax DType.double = 2 ^ 63 - 1 := by
  refine ⟨?_, rfl, rfl, rfl⟩
  intro d data N C H W oH oW
  unfold cpu_adaptive_max_pool_channels_last
  rw [if_neg (by omega)]
  by_cases h : H * W ≤ indexLaneMax d
  · rw [if_neg (not_not_intro h)]
    simp [Except.isOk, Except.toBool, h]
  · rw [if_pos h]
    simp [Except.isOk, Except.toBool, h]

/-- C9: for a fixed indices tensor the backward accumulation is linear
in the incoming gradient. -/
theorem c9_backward_linear (oH oW : Nat) (ind : Nat → Nat)
    (g1 g2 : Nat → ℚ) (a b : ℚ) (j : Nat) :
    cpu_adaptive_max_pool_backward oH oW ind
        (fun cell => a * g1 cell + b * g2 cell) j
      = a * cpu_adaptive_max_pool_backward oH oW ind g1 j
        + b * cpu_adaptive_max_pool_backward oH oW ind g2 j := by
  unfold cpu_adaptive_max_pool_backward
  rw [foldl_update_apply ind (fun cell => a * g1 cell + b * g2 cell),
    foldl_update_apply ind g1, foldl_update_apply ind g2,
    sum_map_range, sum_map_range, sum_map_range]
  have hpt : ∀ i ∈ Finset.range (oH * oW),
      (if ind i = j then a * g1 i + b * g2 i else 0)
        = a * (if ind i = j then g1 i else 0)
          + b * (if ind i = j then g2 i else 0) := by
    intro i _
    by_cases h : ind i = j
    · simp [h]
    · simp [h]
  rw [Finset.sum_congr rfl hpt, Finset.sum_add_distrib]
  simp [Finset.mul_sum]

/-- C5: with all stored indices inside the input plane, both backward
kernels produce, at every grad-input position, exactly the sum of the
grad-output values of the output cells whose stored index equals that
position (grad-input having been zero-initialized). -/
theorem c5_backward_sum (H W C oH oW ih iw c : Nat) (ind indCL : Nat → Nat)
    (g gCL : Nat → ℚ) (hih : ih < H) (hiw : iw < W) (hc : c < C)
    (hind : ∀ cell, cell < oH * oW → ind cell < H * W)
    (hindCL : ∀ cell, cell < oH * oW → ∀ ch, ch < C →
      indCL (cell * C + ch) < H * W) :
    cpu_adaptive_max_pool_backward oH oW ind g (ih * W + iw)
        = (∑ cell in Finset.range (oH * oW),
            if ind cell = ih * W + iw then g cell else 0)
    ∧ cpu_adaptive_max_pool_backward_channels_last C oH oW indCL gCL
          ((ih * W + iw) * C + c)
        = ∑ cell in Finset.range (oH * oW),
            if indCL (cell * C + c) = ih * W + iw then gCL (cell * C + c)
            else 0 := by
  constructor
  · unfold cpu_adaptive_max_pool_backward
    rw [foldl_update_apply ind g, sum_map_range]
    simp
  · unfold cpu_adaptive_max_pool_backward_channels_last
    rw [foldl_cl_update_apply indCL gCL C]
    have hmap : ((List.range (oH * oW)).map fun cell =>
          ((List.range C).map fun ch =>
            if indCL (cell * C + ch) * C + ch = (ih * W + iw) * C + c
            then gCL (cell * C + ch) else 0).sum)
        = (List.range (oH * oW)).map fun cell =>
            if indCL (cell * C + c) = ih * W + iw then gCL (cell * C + c)
            else 0 := by
      apply List.map_congr_left
      intro cell _
      exact inner_sum_collapse indCL gCL C cell (ih * W + iw) c hc
    rw [hmap, sum_map_range]
    simp

theorem c5_backward_sum_witness :
    (0 : Nat) < 2 ∧ (0 : Nat) < 1 ∧
      (cpu_adaptive_max_pool_backward 1 1 (fun _ => 0) (fun _ => 1) (0 * 2 + 0)
          = ∑ cell in Finset.range (1 * 1),
              if (0 : Nat) = 0 * 2 + 0 then (1 : ℚ) else 0) ∧
      (cpu_adaptive_max_pool_backward_channels_last 1 1 1 (fun _ => 0)
            (fun _ => 1) ((0 * 2 + 0) * 1 + 0)
          = ∑ cell in Finset.range (1 * 1),
              if (0 : Nat) = 0 * 2 + 0 then (1 : ℚ) else 0) := by
  have h := c5_backward_sum 2 2 1 1 1 0 0 0 (fun _ => 0) (fun _ => 0)
    (fun _ => 1) (fun _ => 1) (by norm_num) (by norm_num) (by norm_num)
    (fun cell _ => by norm_num) (fun cell _ ch _ => by norm_num)
  exact ⟨by norm_num, by norm_num, h.1, h.2⟩

/-- C4 (amended): on a NaN-free nonempty window the contiguous forward
kernel's output value is the window maximum, attained at the earliest
scan-order position `m` (everything scanned before `m` is strictly
smaller, nothing is larger), and the stored index is the element-type
cast `castIdx d m` of that position (equal to `m` exactly when `m` is
representable at the element type's precision). -/
theorem c4_max_first (d : DType) (dataC : Nat → FP) (H W oH oW c oh ow : Nat)
    (hh : start_index oh oH H < end_index oh oH H)
    (hw : start_index ow oW W < end_index ow oW W)
    (hnn : ∀ j ∈ cellWindow H W oH oW oh ow,
      (contigRead dataC H W c j).isnan = false) :
    ∃ m l1 l2, cellWindow H W oH oW oh ow = l1 ++ m :: l2 ∧
      cpu_adaptive_max_pool d dataC H W oH oW c oh ow
        = (contigRead dataC H W c m, castIdx d m) ∧
      (∀ j ∈ l1, fgt (contigRead dataC H W c m)
          (contigRead dataC H W c j) = true) ∧
      (∀ j ∈ l2, fgt (contigRead dataC H W c j)
          (contigRead dataC H W c m) = false) := by
  obtain ⟨t, ht⟩ := windowCells_eq_cons W _ _ _ _ hh hw
  obtain ⟨m, l1, l2, hsplit, hscan, hpre, hpost⟩ :=
    poolScan_max_spec (contigRead dataC H W c)
      (start_index oh oH H * W + start_index ow oW W)
      (cellWindow H W oH oW oh ow) t ht hnn
  refine ⟨m, l1, l2, hsplit, ?_, hpre, hpost⟩
  simp only [cpu_adaptive_max_pool]
  rw [hscan]

theorem c4_max_first_witness :
    (start_index 0 1 1 < end_index 0 1 1) ∧
    (∀ j ∈ cellWindow 1 1 1 1 0 0,
      (contigRead (fun _ => FP.fin 0) 1 1 0 j).isnan = false) ∧
    (∃ m l1 l2, cellWindow 1 1 1 1 0 0 = l1 ++ m :: l2 ∧
      cpu_adaptive_max_pool DType.float (fun _ => FP.fin 0) 1 1 1 1 0 0 0
        = (contigRead (fun _ => FP.fin 0) 1 1 0 m, castIdx DType.float m) ∧
      (∀ j ∈ l1, fgt (contigRead (fun _ => FP.fin 0) 1 1 0 m)
          (contigRead (fun _ => FP.fin 0) 1 1 0 j) = true) ∧
      (∀ j ∈ l2, fgt (contigRead (fun _ => FP.fin 0) 1 1 0 j)
          (contigRead (fun _ => FP.fin 0) 1 1 0 m) = false)) :=
  ⟨by decide, by decide,
    c4_max_first DType.float (fun _ => FP.fin 0) 1 1 1 1 0 0 0
      (by decide) (by decide) (by decide)⟩

/-- C3 (amended): when the window contains a NaN, both forward kernels
output that NaN, located at the last NaN in scan order (no NaN occurs
after it); the channels-last kernel stores that position exactly, while
the contiguous kernel stores its element-type cast `castIdx d m`
(equal to `m` exactly when `m` is representable at the element type's
precision). -/
theorem c3_nan_semantics (d : DType) (dataC dataCL : Nat → FP)
    (C H W oH oW cp n c oh ow : Nat)
    (hC : ∃ j ∈ cellWindow H W oH oW oh ow,
      (contigRead dataC H W cp j).isnan = true)
    (hCL : ∃ j ∈ cellWindow H W oH oW oh ow,
      (clRead dataCL C H W n c j).isnan = true) :
    (∃ m l1 l2, cellWindow H W oH oW oh ow = l1 ++ m :: l2 ∧
        (contigRead dataC H W cp m).isnan = true ∧
        (∀ j ∈ l2, (contigRead dataC H W cp j).isnan = false) ∧
        cpu_adaptive_max_pool d dataC H W oH oW cp oh ow
          = (contigRead dataC H W cp m, castIdx d m)) ∧
    (∃ m l1 l2, cellWindow H W oH oW oh ow = l1 ++ m :: l2 ∧
        (clRead dataCL C H W n c m).isnan = true ∧
        (∀ j ∈ l2, (clRead dataCL C H W n c j).isnan = false) ∧
        cpu_adaptive_max_pool_channels_last_cell dataCL C H W oH oW n c oh ow
          = (clRead dataCL C H W n c m, m)) := by
  constructor
  · obtain ⟨m, l1, l2, hsplit, hmn, hl2, hscan⟩ :=
      poolScan_nan_spec (contigRead dataC H W cp)
        (start_index oh oH H * W + start_index ow oW W)
        (cellWindow H W oH oW oh ow) hC
    refine ⟨m, l1, l2, hsplit, hmn, hl2, ?_⟩
    simp only [cpu_adaptive_max_pool]
    rw [hscan]
  · obtain ⟨m, l1, l2, hsplit, hmn, hl2, hscan⟩ :=
      poolScan_nan_spec (clRead dataCL C H W n c)
        (start_index oh oH H * W + start_index ow oW W)
        (cellWindow H W oH oW oh ow) hCL
    refine ⟨m, l1, l2, hsplit, hmn, hl2, ?_⟩
    simp only [cpu_adaptive_max_pool_channels_last_cell]
    rw [hscan]

theorem c3_nan_semantics_witness :
    (∃ j ∈ cellWindow 1 1 1 1 0 0,
      (contigRead (fun _ => FP.nan) 1 1 0 j).isnan = true) ∧
    ((∃ m l1 l2, cellWindow 1 1 1 1 0 0 = l1 ++ m :: l2 ∧
        (contigRead (fun _ => FP.nan) 1 1 0 m).isnan = true ∧
        (∀ j ∈ l2, (contigRead (fun _ => FP.nan) 1 1 0 j).isnan = false) ∧
        cpu_adaptive_max_pool DType.float (fun _ => FP.nan) 1 1 1 1 0 0 0
          = (contigRead (fun _ => FP.nan) 1 1 0 m, castIdx DType.float m)) ∧
      (∃ m l1 l2, cellWindow 1 1 1 1 0 0 = l1 ++ m :: l2 ∧
        (clRead (fun _ => FP.nan) 1 1 1 0 0 m).isnan = true ∧
        (∀ j ∈ l2, (clRead (fun _ => FP.nan) 1 1 1 0 0 j).isnan = false) ∧
        cpu_adaptive_max_pool_channels_last_cell (fun _ => FP.nan)
            1 1 1 1 1 0 0 0 0
          = (clRead (fun _ => FP.nan) 1 1 1 0 0 m, m))) :=
  ⟨by decide,
    c3_nan_semantics DType.float (fun _ => FP.nan) (fun _ => FP.nan)
      1 1 1 1 1 0 0 0 0 0 (by decide) (by decide)⟩

/-- C10 (amended): on a nonempty all-(-inf), NaN-free window both forward
kernels output `-inf`; the channels-last kernel stores the window's first
position `ih0*W+iw0` (which lies inside the window), while the contiguous
kernel stores its element-type cast `castIdx d (ih0*W+iw0)` (in-window
whenever that position is representable at the element type's
precision). -/
theorem c10_neginf_window (d : DType) (dataC dataCL : Nat → FP)
    (C H W oH oW cp n c oh ow : Nat)
    (hh : start_index oh oH H < end_index oh oH H)
    (hw : start_index ow oW W < end_index ow oW W)
    (hC : ∀ j ∈ cellWindow H W oH oW oh ow,
      contigRead dataC H W cp j = FP.neginf)
    (hCL : ∀ j ∈ cellWindow H W oH oW oh ow,
      clRead dataCL C H W n c j = FP.neginf) :
    cpu_adaptive_max_pool d dataC H W oH oW cp oh ow
      = (FP.neginf, castIdx d (start_index oh oH H * W + start_index ow oW W))
    ∧ cpu_adaptive_max_pool_channels_last_cell dataCL C H W oH oW n c oh ow
      = (FP.neginf, start_index oh oH H * W + start_index ow oW W)
    ∧ (start_index oh oH H * W + start_index ow oW W)
        ∈ cellWindow H W oH oW oh ow := by
  have h1 : poolScan (contigRead dataC H W cp)
      (start_index oh oH H * W + start_index ow oW W)
      (cellWindow H W oH oW oh ow)
      = (FP.neginf, start_index oh oH H * W + start_index ow oW W) :=
    foldl_poolStep_const _ _ _ fun j hj => by
      rw [hC j hj]; exact ⟨fgt_neginf_left _, rfl⟩
  have h2 : poolScan (clRead dataCL C H W n c)
      (start_index oh oH H * W + start_index ow oW W)
      (cellWindow H W oH oW oh ow)
      = (FP.neginf, start_index oh oH H * W + start_index ow oW W) :=
    foldl_poolStep_const _ _ _ fun j hj => by
      rw [hCL j hj]; exact ⟨fgt_neginf_left _, rfl⟩
  obtain ⟨t, ht⟩ := windowCells_eq_cons W _ _ _ _ hh hw
  refine ⟨?_, ?_, ?_⟩
  · simp only [cpu_adaptive_max_pool]
    rw [h1]
  · simp only [cpu_adaptive_max_pool_channels_last_cell]
    rw [h2]
  · show _ ∈ windowCells W (start_index oh oH H) (end_index oh oH H)
      (start_index ow oW W) (end_index ow oW W)
    rw [ht]
    exact List.mem_cons_self _ _

theorem c10_neginf_window_witness :
    (start_index 0 1 1 < end_index 0 1 1) ∧
    (∀ j ∈ cellWindow 1 1 1 1 0 0,
      contigRead (fun _ => FP.neginf) 1 1 0 j = FP.neginf) ∧
    (cpu_adaptive_max_pool DType.bf16 (fun _ => FP.neginf) 1 1 1 1 0 0 0
        = (FP.neginf, castIdx DType.bf16 (start_index 0 1 1 * 1 + start_index 0 1 1))
      ∧ cpu_adaptive_max_pool_channels_last_cell (fun _ => FP.neginf)
            1 1 1 1 1 0 0 0 0
        = (FP.neginf, start_index 0 1 1 * 1 + start_index 0 1 1)
      ∧ (start_index 0 1 1 * 1 + start_index 0 1 1) ∈ cellWindow 1 1 1 1 0 0) :=
  ⟨by decide, by decide,
    c10_neginf_window DType.bf16 (fun _ => FP.neginf) (fun _ => FP.neginf)
      1 1 1 1 1 0 0 0 0 0 (by decide) (by decide) (by decide) (by decide)⟩

/-- C2 (amended): on the same logical 4D input presented contiguously to
the contiguous kernel and channels-last to the channels-last kernel, the
two forward kernels produce equal output values at every cell, and the
contiguous kernel's stored index equals the element-type cast
`castIdx d` of the channels-last kernel's stored index — hence the
indices agree exactly whenever that index is representable at the
element type's precision (for double inputs, whenever the index is
below 2^53; for float, below 2^24). -/
theorem c2_layout_agreement (d : DType) (dataC dataCL : Nat → FP)
    (N C H W oH oW n c oh ow : Nat)
    (hoh : oh < oH) (how2 : ow < oW) (hH : 0 < H) (hW : 0 < W)
    (hrel : ∀ ih iw, ih < H → iw < W →
      dataC ((n * C + c) * (H * W) + (ih * W + iw))
        = dataCL (n * (H * W * C) + (ih * W + iw) * C + c)) :
    (cpu_adaptive_max_pool d dataC H W oH oW (n * C + c) oh ow).1
      = (cpu_adaptive_max_pool_channels_last_cell dataCL C H W oH oW
          n c oh ow).1
    ∧ (cpu_adaptive_max_pool d dataC H W oH oW (n * C + c) oh ow).2
      = castIdx d (cpu_adaptive_max_pool_channels_last_cell dataCL C H W oH oW
          n c oh ow).2 := by
  have hscan : poolScan (contigRead dataC H W (n * C + c))
      (start_index oh oH H * W + start_index ow oW W)
      (cellWindow H W oH oW oh ow)
      = poolScan (clRead dataCL C H W n c)
        (start_index oh oH H * W + start_index ow oW W)
        (cellWindow H W oH oW oh ow) := by
    unfold poolScan
    apply foldl_poolStep_congr
    intro j hj
    obtain ⟨ih, iw, hle1, hlt1, hle2, hlt2, rfl⟩ := mem_windowCells.mp hj
    have hihH : ih < H := lt_of_lt_of_le hlt1 (end_index_le (by omega) hoh)
    have hiwW : iw < W := lt_of_lt_of_le hlt2 (end_index_le (by omega) how2)
    exact hrel ih iw hihH hiwW
  constructor
  · simp only [cpu_adaptive_max_pool, cpu_adaptive_max_pool_channels_last_cell]
    rw [hscan]
  · simp only [cpu_adaptive_max_pool, cpu_adaptive_max_pool_channels_last_cell]
    rw [hscan]

theorem c2_layout_agreement_witness :
    (0 : Nat) < 1 ∧
    (∀ ih iw : Nat, ih < 1 → iw < 1 →
      (fun _ => FP.fin 0) ((0 * 1 + 0) * (1 * 1) + (ih * 1 + iw))
        = (fun _ => FP.fin 0) (0 * (1 * 1 * 1) + (ih * 1 + iw) * 1 + 0)) ∧
    ((cpu_adaptive_max_pool DType.float (fun _ => FP.fin 0)
          1 1 1 1 (0 * 1 + 0) 0 0).1
        = (cpu_adaptive_max_pool_channels_last_cell (fun _ => FP.fin 0)
            1 1 1 1 1 0 0 0 0).1
      ∧ (cpu_adaptive_max_pool DType.float (fun _ => FP.fin 0)
          1 1 1 1 (0 * 1 + 0) 0 0).2
        = castIdx DType.float
            (cpu_adaptive_max_pool_channels_last_cell (fun _ => FP.fin 0)
              1 1 1 1 1 0 0 0 0).2) :=
  ⟨by decide, fun ih iw _ _ => rfl,
    c2_layout_agreement DType.float (fun _ => FP.fin 0) (fun _ => FP.fin 0)
      1 1 1 1 1 1 0 0 0 0 (by decide) (by decide) (by decide) (by decide)
      (fun ih iw _ _ => rfl)⟩


/-- C8 (amended): the forward dispatch shell fails exactly when the rank
is not 3 or 4, a non-batch dimension is zero, the output-size argument
does not have exactly 2 elements, or the input is channels-last and
`H·W` overflows the channels-last kernel's index-lane bound (the latter
check lives in the kernel, not the shell); in all other cases it returns
the (output, indices) pair. -/
theorem c8_shell_validation (d : DType) (chLast : Bool)
    (sizes outSize : List Nat) (data : Nat → FP) :
    (adaptive_max_pool2d_out_cpu d chLast sizes outSize data).isOk = true ↔
      ((sizes.length = 3 ∨ sizes.length = 4) ∧
        (∀ s ∈ sizes.drop 1, 0 < s) ∧ outSize.length = 2 ∧
        (suggestMemFmt chLast sizes.length = true →
          sizes.getD 2 0 * sizes.getD 3 0 ≤ indexLaneMax d)) := by
  have hall : ((sizes.drop 1).all (fun s => decide (0 < s)) = true)
      ↔ (∀ s ∈ sizes.drop 1, 0 < s) := by simp
  simp only [adaptive_max_pool2d_out_cpu]
  by_cases h1 : sizes.length = 3 ∨ sizes.length = 4
  · rw [if_neg (not_not_intro h1)]
    by_cases h2 : (sizes.drop 1).all (fun s => decide (0 < s)) = true
    · rw [if_neg (not_not_intro h2)]
      by_cases h3 : outSize.length = 2
      · rw [if_neg (not_not_intro h3)]
        by_cases h4 : suggestMemFmt chLast sizes.length = true
        · rw [if_pos h4]
          have h4' : sizes.length = 4 := by
            have h := h4
            simp only [suggestMemFmt, Bool.and_eq_true, beq_iff_eq] at h
            exact h.2
          simp only [cpu_adaptive_max_pool_channels_last]
          rw [if_neg fun hh => hh h4']
          by_cases h5 : sizes.getD 2 0 * sizes.getD 3 0 ≤ indexLaneMax d
          · rw [if_neg (not_not_intro h5)]
            simp only [Except.isOk, Except.toBool]
            constructor
            · intro _
              exact ⟨h1, hall.mp h2, h3, fun _ => h5⟩
            · intro _
              trivial
          · rw [if_pos h5]
            simp only [Except.isOk, Except.toBool]
            constructor
            · intro hh
              cases hh
            · rintro ⟨-, -, -, himp⟩
              exact absurd (himp h4) h5
        · rw [if_neg h4]
          simp only [Except.isOk, Except.toBool]
          constructor
          · intro _
            exact ⟨h1, hall.mp h2, h3, fun hmf => absurd hmf h4⟩
          · intro _
            trivial
      · rw [if_pos h3]
        simp only [Except.isOk, Except.toBool]
        constructor
        · intro hh
          cases hh
        · rintro ⟨-, -, h3', -⟩
          exact absurd h3' h3
    · rw [if_pos h2]
      simp only [Except.isOk, Except.toBool]
      constructor
      · intro hh
        cases hh
      · rintro ⟨-, hforall, -⟩
        exact absurd (hall.mpr hforall) h2
  · rw [if_pos h1]
    simp only [Except.isOk, Except.toBool]
    constructor
    · intro hh
      cases hh
    · rintro ⟨h1', -⟩
      exact absurd h1' h1

/-- C8 counterexample: a 4D channels-last float input that passes every
shell-level check (rank 4, non-zero non-batch dimensions, output-size
arity 2) yet fails, because the channels-last kernel's `H·W <= 2^31 - 1`
overflow check fires (46341 · 46341 > 2^31 - 1). -/
theorem c8_counterexample :
    (adaptive_max_pool2d_out_cpu DType.float true [1, 1, 46341, 46341]
        [1, 1] fun _ => FP.fin 0).isOk = false ∧
    ([1, 1, 46341, 46341] : List Nat).length = 4 ∧
    (∀ s ∈ ([1, 1, 46341, 46341] : List Nat).drop 1, 0 < s) ∧
    ([1, 1] : List Nat).length = 2 := by decide

set_option maxRecDepth 4000 in
/-- C1 (code bug): on a contiguous bfloat16 input of spatial shape 1x300
pooled to 1x150, output cell (0,128) has window [256,258); with the
unique maximum `1` at flat position 257, the kernel's
`indices_ptr[...] = scalar_t(maxindex)` store rounds the argmax index
257 to bfloat16 and back, so the stored index is 256: the indices tensor
no longer points at the argmax, and the output value `1` differs from
the input value `0` at the decoded position. -/
theorem c1_index_cast_bug :
    (cpu_adaptive_max_pool DType.bf16 exInputC1 1 300 1 150 0 0 128).1
        = FP.fin 1 ∧
    (cpu_adaptive_max_pool DType.bf16 exInputC1 1 300 1 150 0 0 128).2
        = 256 ∧
    cellWindow 1 300 1 150 0 128 = [256, 257] ∧
    exInputC1 257 = FP.fin 1 ∧ exInputC1 256 = FP.fin 0 := by decide

set_option maxRecDepth 4000 in
/-- C2 counterexample: on the same logical bfloat16 input (a single `1`
at flat position 257 of a 1x1x1x300 tensor pooled to 1x150), the
contiguous kernel stores index 256 at output cell (0,128) while the
channels-last kernel stores 257: the two layouts disagree. -/
theorem c2_counterexample :
    (cpu_adaptive_max_pool DType.bf16 exInputC2 1 300 1 150 0 0 128).2
        = 256 ∧
    (cpu_adaptive_max_pool_channels_last_cell exInputC2 1 1 300 1 150
        0 0 0 128).2 = 257 := by decide

set_option maxRecDepth 4000 in
/-- C3 counterexample: with the only NaN of the window [256,258) at flat
position 257 of a bfloat16 input, the contiguous kernel stores index
256, which is not a NaN position (the channels-last kernel stores 257,
the true last-NaN position). -/
theorem c3_counterexample :
    (cpu_adaptive_max_pool DType.bf16 exInputC3 1 300 1 150 0 0 128).2
        = 256 ∧
    (exInputC3 256).isnan = false ∧ (exInputC3 257).isnan = true ∧
    (cpu_adaptive_max_pool_channels_last_cell exInputC3 1 1 300 1 150
        0 0 0 128).2 = 257 := by decide

set_option maxRecDepth 4000 in
/-- C4 counterexample: with the NaN-free window [256,258) holding `2` at
256 and the maximum `5` at 257 in a bfloat16 input, the contiguous
kernel outputs `5` but stores index 256, whose value is `2`: the stored
index does not decode to an occurrence of the maximum. -/
theorem c4_counterexample :
    (cpu_adaptive_max_pool DType.bf16 exInputC4 1 300 1 150 0 0 128).1
        = FP.fin 5 ∧
    (cpu_adaptive_max_pool DType.bf16 exInputC4 1 300 1 150 0 0 128).2
        = 256 ∧
    exInputC4 256 = FP.fin 2 ∧ exInputC4 257 = FP.fin 5 := by decide

set_option maxRecDepth 4000 in
/-- C10 counterexample: for an all-(-inf) bfloat16 input with window
`{257}` (W = 300, oW = 300, ow = 257), the window's first position is
257 but the contiguous kernel stores its bfloat16 cast 256, which lies
outside the window. -/
theorem c10_counterexample :
    (cpu_adaptive_max_pool DType.bf16 exInputC10 1 300 1 300 0 0 257).2
        = 256 ∧
    cellWindow 1 300 1 300 0 257 = [257] := by decide


end AdaptiveMaxPool

